import Mathlib

/-!
Verification development for the besticon worker (src/main.ts).

The source is a small TypeScript worker that fetches a web page, scans the
markup with a handful of regular expressions for icon declarations
(apple-touch-icon links, favicon links, Open Graph image meta tags, and a
conditional web-app-manifest fallback), normalizes each hit into an
`IconCandidate`, and selects the best candidate by sorting on
(priority, Manhattan distance of the declared size from 100 by 100).

The shallow embedding below models:
  - strings as `List Char` (with `String` wrappers matching the source
    signatures);
  - the specific regular expressions of the source as executable scanners
    with JavaScript semantics (leftmost match, greedy character-class
    repetition with backtracking, case-insensitive literals, global
    non-overlapping iteration for `matchAll`);
  - the two effectful platform primitives as explicit function parameters:
    `urlRes` models `new URL(ref, base).toString()` (`none` models the
    constructor throwing), and `fetchMan` models fetching + JSON-parsing a
    manifest URL (`none` models a non-ok status, a network error, or a JSON
    parse failure);
  - `Array.prototype.sort` (stable since ES2019, and the comparator used by
    the source is consistent) as a stable insertion sort, with the state of
    the caller's array after the in-place sort modeled by `sortIcons`.
-/

/-- The single quote character (codepoint 39), used by the quote classes of
the source's regular expressions. -/
def squote : Char := Char.ofNat 39

/-- Membership in the regex character class for quotes, written in the
source as a class containing the double and the single quote. -/
def isQuote (c : Char) : Bool := c == '"' || c == squote

/-- Case-insensitive character comparison, modeling the `i` regex flag on
the ASCII literals the source uses. -/
def charCI (c d : Char) : Bool := c.toLower == d.toLower

/-- Case-insensitive equality of character lists: the two lists agree after
lowercasing.  This is the relation a case-insensitive regex literal induces
on the text it matches. -/
def ciEq (l lit : List Char) : Prop := l.map Char.toLower = lit.map Char.toLower

instance (l lit : List Char) : Decidable (ciEq l lit) := by
  unfold ciEq; infer_instance

/-- Matcher for a case-insensitive literal: consumes the literal from the
front of the input and returns the remaining input, or fails. -/
def matchLitCI : List Char → List Char → Option (List Char)
  | [], cs => some cs
  | _ :: _, [] => none
  | l :: lit, c :: cs => if charCI c l then matchLitCI lit cs else none

/-- Numeric value of a digit string, modeling `parseInt` on a match of one
or more decimal digits. -/
def digitsToNat (ds : List Char) : Nat :=
  ds.foldl (fun acc c => acc * 10 + (c.toNat - 48)) 0

/-- Leftmost-match driver shared by all the source's uses of
`String.prototype.match`: try the single-position matcher `f` at position
0, 1, 2, ... of the input and return the first success.  This is exactly
how a JavaScript regex engine locates a (non-anchored) match. -/
def scanFirst {α : Type} (f : List Char → Option α) : List Char → Option α
  | [] => none
  | c :: cs =>
    match f (c :: cs) with
    | some r => some r
    | none => scanFirst f cs

/-- Source type of a candidate, the `type` union of the source's
`IconCandidate` interface. -/
inductive IconType where
  | appleTouchIcon
  | favicon
  | ogImage
  | manifest
deriving DecidableEq

/-- A discovered icon reference, the source's `IconCandidate` interface.
Widths and heights are integers (the source only ever stores non-negative
integers in these `number` fields). -/
structure IconCandidate where
  url : String
  width : Int
  height : Int
  type : IconType
  priority : Nat
deriving DecidableEq

/-- An entry of a web app manifest's icon array, the source's
`ManifestIcon` interface (`src` required, `sizes` optional). -/
structure ManifestIcon where
  src : String
  sizes : Option String
deriving DecidableEq

/-- A parsed web app manifest, the source's `WebManifest` interface
(optional `icons` array). -/
structure WebManifest where
  icons : Option (List ManifestIcon)
deriving DecidableEq

/-- The fixed sourceType-to-priority table stated by the spec (1 for
apple-touch-icon through 4 for manifest); the source writes the
corresponding literal at each construction site. -/
def priorityOf : IconType → Nat
  | IconType.appleTouchIcon => 1
  | IconType.favicon => 2
  | IconType.ogImage => 3
  | IconType.manifest => 4

/-- Single-position matcher for the attribute regex built by the source's
`extractAttribute`: the attribute name (case-insensitive), `=`, an opening
quote from the class, a run of characters outside the quote class (the
captured group), and a closing quote from the class.  The two quotes are
drawn independently from the same class. -/
def attrTryAt (name : List Char) (cs : List Char) : Option (List Char) :=
  match matchLitCI (name ++ ['=']) cs with
  | none => none
  | some rest =>
    match rest with
    | [] => none
    | q1 :: rest2 =>
      if isQuote q1 then
        let v := rest2.takeWhile (fun c => !isQuote c)
        match rest2.drop v.length with
        | [] => none
        | q2 :: _ => if isQuote q2 then some v else none
      else none

/-- Model of the source's `extractAttribute(html, attributeName)`: first
(leftmost) match of the attribute regex, returning the captured group. -/
def extractAttribute (html : String) (attributeName : String) : Option String :=
  (scanFirst (attrTryAt attributeName.data) html.data).map (fun v => String.mk v)

/-- Single-position matcher for the size regex: one or more digits, a
lowercase letter x, one or more digits (the source's regex has no
case-insensitive flag).  The digit runs are greedy; since the letter x is
not a digit, greedy matching with backtracking succeeds at a position
exactly when the maximal digit runs fit this shape. -/
def wxhTryAt (cs : List Char) : Option (Nat × Nat) :=
  let a := cs.takeWhile Char.isDigit
  if a = [] then none
  else
    match cs.drop a.length with
    | 'x' :: rest =>
      let b := rest.takeWhile Char.isDigit
      if b = [] then none else some (digitsToNat a, digitsToNat b)
    | _ => none

/-- Single-position matcher for the bare-number size regex: one or more
digits, captured greedily. -/
def digitTryAt (cs : List Char) : Option Nat :=
  match cs with
  | [] => none
  | c :: _ => if c.isDigit then some (digitsToNat (cs.takeWhile Char.isDigit)) else none

/-- Model of the source's `parseSizes(sizes)`.  A missing or empty (falsy)
descriptor defaults to 32 by 32; otherwise the first digits-x-digits match
wins; otherwise the first digit run is used as a square size; otherwise the
default applies. -/
def parseSizes (sizes : Option String) : Int × Int :=
  match sizes with
  | none => (32, 32)
  | some s =>
    if s = "" then (32, 32)
    else
      match scanFirst wxhTryAt s.data with
      | some (w, h) => ((w : Int), (h : Int))
      | none =>
        match scanFirst digitTryAt s.data with
        | some n => ((n : Int), (n : Int))
        | none => (32, 32)

/-- Model of the source's `resolveUrl(href, baseUrl)`.  The platform
primitive `new URL(href, base).toString()` is passed in as `urlRes`, with
`none` modeling the constructor throwing; the catch branch of the source
returns the raw reference unchanged. -/
def resolveUrl (urlRes : String → String → Option String)
    (href : String) (baseUrl : String) : String :=
  match urlRes href baseUrl with
  | some u => u
  | none => href

/-- Shape shared by the four tag regexes of `extractIcons`: a tag-opening
literal, a greedy run of non-gt characters, an attribute literal, a quote,
a value literal, optionally a greedy run of non-quote characters (only the
apple-touch-icon regex has this), a quote, a greedy run of non-gt
characters, and the closing gt. -/
structure TagPattern where
  tagLit : List Char
  attrLit : List Char
  valueLit : List Char
  allowValueSuffix : Bool
deriving DecidableEq

/-- Deterministic tail of a tag regex once the position right after the
greedy non-gt run has been fixed: attribute literal, opening quote, value
literal, optional non-quote run closed by a quote, then a non-gt run closed
by gt.  Returns the number of characters consumed.  Each character class
here excludes its closing delimiter, so greedy matching is forced and no
backtracking can arise inside this tail. -/
def contAfterA (p : TagPattern) (cs : List Char) : Option Nat :=
  match matchLitCI p.attrLit cs with
  | none => none
  | some rest1 =>
    match rest1 with
    | [] => none
    | q1 :: rest2 =>
      if isQuote q1 then
        match matchLitCI p.valueLit rest2 with
        | none => none
        | some rest3 =>
          let b := if p.allowValueSuffix then rest3.takeWhile (fun c => !isQuote c) else []
          match rest3.drop b.length with
          | [] => none
          | q2 :: rest5 =>
            if isQuote q2 then
              let cpart := rest5.takeWhile (fun ch => ch != '>')
              match rest5.drop cpart.length with
              | [] => none
              | g :: _ =>
                if g = '>' then
                  some (p.attrLit.length + 1 + p.valueLit.length + b.length + 1
                        + cpart.length + 1)
                else none
            else none
      else none

/-- Greedy repetition of the leading non-gt class with backtracking: try
the longest repetition first (length `k` counts down), running the
continuation on the rest; this is exactly the JavaScript backtracking order
for a greedy class repetition followed by further pattern. -/
def tryStarThen (cont : List Char → Option Nat) : Nat → List Char → Option Nat
  | 0, cs => cont cs
  | Nat.succ k, cs =>
    match cont (cs.drop (k + 1)) with
    | some n => some (k + 1 + n)
    | none => tryStarThen cont k cs

/-- Single-position matcher for a whole tag regex: tag literal, then the
greedy non-gt run (its maximal length is the length of the longest non-gt
run, and backtracking shortens it), then the deterministic tail.  Returns
the total match length. -/
def tryPat (p : TagPattern) (cs : List Char) : Option Nat :=
  match matchLitCI p.tagLit cs with
  | none => none
  | some rest =>
    (tryStarThen (contAfterA p) ((rest.takeWhile (fun ch => ch != '>')).length) rest).map
      (fun m => p.tagLit.length + m)

/-- Leftmost match of a tag regex, returning the matched fragment and the
remaining input after it (the `lastIndex` semantics of a global regex). -/
def findFirstTag (p : TagPattern) (cs : List Char) :
    Option (List Char × List Char) :=
  scanFirst (fun suf => (tryPat p suf).map (fun n => (suf.take n, suf.drop n))) cs

theorem contAfterA_pos {p : TagPattern} {cs : List Char} {n : Nat}
    (h : contAfterA p cs = some n) : 1 ≤ n := by
  unfold contAfterA at h
  cases hm : matchLitCI p.attrLit cs with
  | none => rw [hm] at h; exact absurd h (by simp)
  | some rest1 =>
    rw [hm] at h
    cases rest1 with
    | nil => exact absurd h (by simp)
    | cons q1 rest2 =>
      simp only at h
      by_cases hq : isQuote q1 = true
      · rw [if_pos hq] at h
        cases hv : matchLitCI p.valueLit rest2 with
        | none => rw [hv] at h; exact absurd h (by simp)
        | some rest3 =>
          rw [hv] at h
          simp only at h
          cases hd : rest3.drop (if p.allowValueSuffix then rest3.takeWhile (fun c => !isQuote c) else []).length with
          | nil => rw [hd] at h; exact absurd h (by simp)
          | cons q2 rest5 =>
            rw [hd] at h
            simp only at h
            by_cases hq2 : isQuote q2 = true
            · rw [if_pos hq2] at h
              cases hg : rest5.drop (rest5.takeWhile (fun ch => ch != '>')).length with
              | nil => rw [hg] at h; exact absurd h (by simp)
              | cons g rest6 =>
                rw [hg] at h
                simp only at h
                by_cases hgt : g = '>'
                · rw [if_pos hgt] at h
                  have := Option.some.inj h
                  omega
                · rw [if_neg hgt] at h; exact absurd h (by simp)
            · rw [if_neg hq2] at h; exact absurd h (by simp)
      · rw [if_neg hq] at h; exact absurd h (by simp)

theorem tryStarThen_pos {cont : List Char → Option Nat}
    (hc : ∀ cs n, cont cs = some n → 1 ≤ n) :
    ∀ k cs m, tryStarThen cont k cs = some m → 1 ≤ m := by
  intro k
  induction k with
  | zero => intro cs m h; exact hc cs m h
  | succ k ih =>
    intro cs m h
    unfold tryStarThen at h
    cases hk : cont (cs.drop (k + 1)) with
    | some n => rw [hk] at h; have := Option.some.inj h; omega
    | none => rw [hk] at h; exact ih cs m h

theorem tryPat_pos {p : TagPattern} {cs : List Char} {n : Nat}
    (h : tryPat p cs = some n) : 1 ≤ n := by
  unfold tryPat at h
  cases hm : matchLitCI p.tagLit cs with
  | none => rw [hm] at h; exact absurd h (by simp)
  | some rest =>
    rw [hm] at h
    simp only at h
    cases hs : tryStarThen (contAfterA p) ((rest.takeWhile (fun ch => ch != '>')).length) rest with
    | none => rw [hs] at h; exact absurd h (by simp)
    | some m =>
      rw [hs] at h
      simp only [Option.map_some', Option.some.injEq] at h
      have hm1 : 1 ≤ m :=
        tryStarThen_pos (fun cs n hcn => contAfterA_pos hcn) _ _ _ hs
      omega

theorem scanFirst_elim {α : Type} {f : List Char → Option α} :
    ∀ {cs : List Char} {r : α}, scanFirst f cs = some r →
    ∃ i, i < cs.length ∧ f (List.drop i cs) = some r := by
  intro cs
  induction cs with
  | nil => intro r h; exact absurd h (by simp [scanFirst])
  | cons c cs ih =>
    intro r h
    unfold scanFirst at h
    cases hf : f (c :: cs) with
    | some v =>
      rw [hf] at h
      exact ⟨0, by simp, by simpa [hf] using h⟩
    | none =>
      rw [hf] at h
      obtain ⟨i, hi, hfi⟩ := ih h
      exact ⟨i + 1, by simpa using Nat.succ_lt_succ hi, by simpa using hfi⟩

theorem findFirstTag_rest_lt {p : TagPattern} {cs : List Char}
    {r : List Char × List Char} (h : findFirstTag p cs = some r) :
    r.2.length < cs.length := by
  obtain ⟨i, hi, hfi⟩ := scanFirst_elim h
  cases htp : tryPat p (List.drop i cs) with
  | none => rw [htp] at hfi; exact absurd hfi (by simp)
  | some n =>
    rw [htp] at hfi
    have hn : 1 ≤ n := tryPat_pos htp
    have : r = ((List.drop i cs).take n, (List.drop i cs).drop n) := by
      simpa using hfi.symm
    subst this
    simp only [List.length_drop]
    omega

/-- Fuelled iteration of leftmost matching.  Every successful match
consumes at least one character (`findFirstTag_rest_lt`), so any fuel
exceeding the input length yields the full match list; the fuel only makes
the recursion structural so that the function reduces by evaluation. -/
def matchAllFuel (p : TagPattern) : Nat → List Char → List (List Char)
  | 0, _ => []
  | Nat.succ fuel, cs =>
    match findFirstTag p cs with
    | none => []
    | some r => r.1 :: matchAllFuel p fuel r.2

/-- Global matching of a tag regex, the source's `html.match(regex) || []`
with the `g` flag: leftmost match, then continue after it, repeatedly. -/
def matchAll (p : TagPattern) (cs : List Char) : List (List Char) :=
  matchAllFuel p (cs.length + 1) cs

theorem matchAllFuel_congr (p : TagPattern) :
    ∀ (fuel fuel2 : Nat) (cs : List Char), cs.length < fuel →
    cs.length < fuel2 → matchAllFuel p fuel cs = matchAllFuel p fuel2 cs := by
  intro fuel
  induction fuel with
  | zero => intro fuel2 cs h _; exact absurd h (by omega)
  | succ fuel ih =>
    intro fuel2 cs h h2
    cases fuel2 with
    | zero => exact absurd h2 (by omega)
    | succ fuel2 =>
      show (match findFirstTag p cs with
            | none => []
            | some r => r.1 :: matchAllFuel p fuel r.2)
          = (match findFirstTag p cs with
            | none => []
            | some r => r.1 :: matchAllFuel p fuel2 r.2)
      cases hf : findFirstTag p cs with
      | none => rfl
      | some r =>
        have hlt := findFirstTag_rest_lt hf
        simp only
        rw [ih fuel2 r.2 (by omega) (by omega)]

/-- Unfolding rule for `matchAll`: one leftmost match, then recurse on the
remaining input, exactly the global-regex iteration of the source. -/
theorem matchAll_eq (p : TagPattern) (cs : List Char) :
    matchAll p cs =
      match findFirstTag p cs with
      | none => []
      | some r => r.1 :: matchAll p r.2 := by
  show matchAllFuel p (cs.length + 1) cs = _
  rw [show matchAllFuel p (cs.length + 1) cs
      = (match findFirstTag p cs with
         | none => []
         | some r => r.1 :: matchAllFuel p cs.length r.2) from rfl]
  cases hf : findFirstTag p cs with
  | none => rfl
  | some r =>
    have hlt := findFirstTag_rest_lt hf
    simp only
    rw [matchAllFuel_congr p cs.length (r.2.length + 1) r.2 (by omega) (by omega)]
    rfl

/-- The apple-touch-icon regex of the source: link tag, non-gt run, `rel=`,
quote, the literal `apple-touch-icon`, a non-quote run, quote, non-gt run,
gt; case-insensitive, global. -/
def applePat : TagPattern :=
  { tagLit := "<link".data, attrLit := "rel=".data,
    valueLit := "apple-touch-icon".data, allowValueSuffix := true }

/-- The favicon regex of the source: link tag with `rel` exactly `icon`. -/
def faviconPat : TagPattern :=
  { tagLit := "<link".data, attrLit := "rel=".data,
    valueLit := "icon".data, allowValueSuffix := false }

/-- The Open Graph image regex of the source: meta tag with `property`
exactly `og:image`. -/
def ogImagePat : TagPattern :=
  { tagLit := "<meta".data, attrLit := "property=".data,
    valueLit := "og:image".data, allowValueSuffix := false }

/-- The manifest regex of the source: link tag with `rel` exactly
`manifest`. -/
def manifestPat : TagPattern :=
  { tagLit := "<link".data, attrLit := "rel=".data,
    valueLit := "manifest".data, allowValueSuffix := false }

/-- Model of the source's `fetchManifestIcons(manifestUrl, baseUrl)`.  The
platform fetch + JSON parse is the parameter `fetchMan`; `none` models a
non-ok response status, a network error, or malformed JSON, all of which
the source turns into an empty candidate list (early return or catch).  On
success, each entry of the manifest's icon array becomes one manifest
candidate with priority 4, its src resolved against the page's base URL. -/
def fetchManifestIcons (fetchMan : String → Option WebManifest)
    (urlRes : String → String → Option String)
    (manifestUrl : String) (baseUrl : String) : List IconCandidate :=
  match fetchMan manifestUrl with
  | none => []
  | some manifest =>
    match manifest.icons with
    | none => []
    | some icons =>
      icons.map (fun icon =>
        { url := resolveUrl urlRes icon.src baseUrl,
          width := (parseSizes icon.sizes).1,
          height := (parseSizes icon.sizes).2,
          type := IconType.manifest,
          priority := 4 })

/-- The apple-touch-icon pass of `extractIcons`: for each regex match with
a truthy (present and non-empty) `href` attribute, push a priority-1
candidate whose sizes come from the `sizes` attribute. -/
def appleCandidates (urlRes : String → String → Option String)
    (html : String) (baseUrl : String) : List IconCandidate :=
  (matchAll applePat html.data).filterMap (fun m =>
    match extractAttribute (String.mk m) "href" with
    | none => none
    | some href =>
      if href = "" then none
      else
        some { url := resolveUrl urlRes href baseUrl,
               width := (parseSizes (extractAttribute (String.mk m) "sizes")).1,
               height := (parseSizes (extractAttribute (String.mk m) "sizes")).2,
               type := IconType.appleTouchIcon,
               priority := 1 })

/-- The favicon pass of `extractIcons`: priority-2 candidates. -/
def faviconCandidates (urlRes : String → String → Option String)
    (html : String) (baseUrl : String) : List IconCandidate :=
  (matchAll faviconPat html.data).filterMap (fun m =>
    match extractAttribute (String.mk m) "href" with
    | none => none
    | some href =>
      if href = "" then none
      else
        some { url := resolveUrl urlRes href baseUrl,
               width := (parseSizes (extractAttribute (String.mk m) "sizes")).1,
               height := (parseSizes (extractAttribute (String.mk m) "sizes")).2,
               type := IconType.favicon,
               priority := 2 })

/-- The Open Graph pass of `extractIcons`: the reference comes from the
`content` attribute, and the size is hard-coded to 1200 by 630 with
priority 3. -/
def ogImageCandidates (urlRes : String → String → Option String)
    (html : String) (baseUrl : String) : List IconCandidate :=
  (matchAll ogImagePat html.data).filterMap (fun m =>
    match extractAttribute (String.mk m) "content" with
    | none => none
    | some content =>
      if content = "" then none
      else
        some { url := resolveUrl urlRes content baseUrl,
               width := 1200,
               height := 630,
               type := IconType.ogImage,
               priority := 3 })

/-- The manifest pass of `extractIcons`: for each manifest link with a
truthy `href`, resolve it and append whatever `fetchManifestIcons`
contributes. -/
def manifestCandidates (fetchMan : String → Option WebManifest)
    (urlRes : String → String → Option String)
    (html : String) (baseUrl : String) : List IconCandidate :=
  (matchAll manifestPat html.data).flatMap (fun m =>
    match extractAttribute (String.mk m) "href" with
    | none => []
    | some href =>
      if href = "" then []
      else fetchManifestIcons fetchMan urlRes (resolveUrl urlRes href baseUrl) baseUrl)

/-- The candidate list after the first three passes of `extractIcons`
(the pushes of the apple-touch-icon, favicon and og-image loops, in source
order). -/
def preManifestIcons (urlRes : String → String → Option String)
    (html : String) (baseUrl : String) : List IconCandidate :=
  appleCandidates urlRes html baseUrl ++ faviconCandidates urlRes html baseUrl
    ++ ogImageCandidates urlRes html baseUrl

/-- Model of the source's `extractIcons(html, baseUrl)`: the three direct
passes, then, only when the accumulated list has no entry of a type other
than og-image, the manifest pass is run and its results appended. -/
def extractIcons (fetchMan : String → Option WebManifest)
    (urlRes : String → String → Option String)
    (html : String) (baseUrl : String) : List IconCandidate :=
  let icons := preManifestIcons urlRes html baseUrl
  if (icons.filter (fun icon => icon.type != IconType.ogImage)).length = 0 then
    icons ++ manifestCandidates fetchMan urlRes html baseUrl
  else icons

/-- Manhattan distance of a candidate's declared size from the fixed
100-by-100 target, computed inside the source's sort comparator. -/
def sizeDistance (c : IconCandidate) : Nat :=
  (c.width - 100).natAbs + (c.height - 100).natAbs

/-- The sort comparator of `findBestIcon`: priority difference first, size
distance difference as the tie-break. -/
def compareIcons (a b : IconCandidate) : Int :=
  if a.priority ≠ b.priority then (a.priority : Int) - (b.priority : Int)
  else (sizeDistance a : Int) - (sizeDistance b : Int)

/-- Stable insertion: the new element goes in front of the first existing
element that does not compare strictly below it.  Inserting an
originally-earlier element in front of its equals is exactly the stability
guarantee of `Array.prototype.sort`. -/
def insertSorted (x : IconCandidate) : List IconCandidate → List IconCandidate
  | [] => [x]
  | b :: l => if compareIcons b x < 0 then b :: insertSorted x l else x :: b :: l

/-- The state of the caller's array after the in-place
`icons.sort(comparator)` of `findBestIcon`: the stable sort of the input by
the comparator. -/
def sortIcons (l : List IconCandidate) : List IconCandidate :=
  l.foldr insertSorted []

/-- Model of the source's `findBestIcon(icons)`: sort, then take element 0
(`none` when the list is empty; the orchestrator only calls this on a
non-empty list). -/
def findBestIcon (icons : List IconCandidate) : Option IconCandidate :=
  (sortIcons icons).head?

theorem scanFirst_cons_some {α : Type} {f : List Char → Option α}
    {c : Char} {cs : List Char} {r : α} (h : f (c :: cs) = some r) :
    scanFirst f (c :: cs) = some r := by
  unfold scanFirst; rw [h]

theorem scanFirst_cons {α : Type} (f : List Char → Option α) (c : Char)
    (cs : List Char) :
    scanFirst f (c :: cs) =
      match f (c :: cs) with
      | some r => some r
      | none => scanFirst f cs := rfl

theorem scanFirst_append_none {α : Type} {f : List Char → Option α} :
    ∀ (pre rest : List Char),
    (∀ i < pre.length, f (List.drop i (pre ++ rest)) = none) →
    scanFirst f (pre ++ rest) = scanFirst f rest := by
  intro pre
  induction pre with
  | nil => intro rest _; rfl
  | cons p pre ih =>
    intro rest h
    have h0 : f (p :: (pre ++ rest)) = none := by
      have := h 0 (by simp)
      simpa using this
    have ihr := ih rest (fun i hi => by
      have := h (i + 1) (by simpa using Nat.succ_lt_succ hi)
      simpa using this)
    show scanFirst f (p :: (pre ++ rest)) = scanFirst f rest
    rw [scanFirst_cons, h0, ihr]

theorem scanFirst_none {α : Type} {f : List Char → Option α} :
    ∀ (cs : List Char), (∀ i, f (List.drop i cs) = none) →
    scanFirst f cs = none := by
  intro cs
  induction cs with
  | nil => intro _; rfl
  | cons c cs ih =>
    intro h
    unfold scanFirst
    have h0 : f (c :: cs) = none := by simpa using h 0
    rw [h0]
    exact ih (fun i => by simpa using h (i + 1))

theorem takeWhile_append_all {p : Char → Bool} :
    ∀ (a l : List Char), (∀ x ∈ a, p x = true) →
    (a ++ l).takeWhile p = a ++ l.takeWhile p := by
  intro a
  induction a with
  | nil => intro l _; rfl
  | cons x a ih =>
    intro l h
    have hx : p x = true := h x (by simp)
    simp only [List.cons_append, List.takeWhile_cons, hx, if_true]
    rw [ih l (fun y hy => h y (by simp [hy]))]

theorem takeWhile_append_stop {p : Char → Bool} (a l : List Char) (y : Char)
    (ha : ∀ x ∈ a, p x = true) (hy : p y = false) :
    (a ++ y :: l).takeWhile p = a := by
  rw [takeWhile_append_all a (y :: l) ha]
  simp [List.takeWhile_cons, hy]

theorem takeWhile_all {p : Char → Bool} (a : List Char)
    (ha : ∀ x ∈ a, p x = true) : a.takeWhile p = a := by
  have := takeWhile_append_all a [] ha
  simpa using this

theorem mem_takeWhile_sat {p : Char → Bool} :
    ∀ (l : List Char) (x : Char), x ∈ l.takeWhile p → p x = true := by
  intro l
  induction l with
  | nil => intro x hx; simp [List.takeWhile] at hx
  | cons c cs ih =>
    intro x hx
    rw [List.takeWhile_cons] at hx
    by_cases hc : p c = true
    · rw [if_pos hc] at hx
      rcases List.mem_cons.mp hx with h | h
      · exact h ▸ hc
      · exact ih x h
    · rw [if_neg hc] at hx
      simp at hx

theorem take_sat_of_le_takeWhile {p : Char → Bool} :
    ∀ (l : List Char) (k : Nat), k ≤ (l.takeWhile p).length →
    ∀ x ∈ l.take k, p x = true := by
  intro l
  induction l with
  | nil => intro k _ x hx; simp at hx
  | cons c cs ih =>
    intro k hk x hx
    rw [List.takeWhile_cons] at hk
    by_cases hc : p c = true
    · rw [if_pos hc] at hk
      cases k with
      | zero => simp at hx
      | succ k =>
        rw [List.take_succ_cons] at hx
        rcases List.mem_cons.mp hx with h | h
        · exact h ▸ hc
        · exact ih k (by simpa using hk) x h
    · rw [if_neg hc] at hk
      simp at hk
      subst hk
      simp at hx

theorem matchLitCI_of_ciEq :
    ∀ (lit t rest : List Char), ciEq t lit →
    matchLitCI lit (t ++ rest) = some rest := by
  intro lit
  induction lit with
  | nil =>
    intro t rest h
    have : t = [] := by simpa [ciEq] using h
    subst this; rfl
  | cons l ls ih =>
    intro t rest h
    cases t with
    | nil => simp [ciEq] at h
    | cons c t =>
      simp only [ciEq, List.map_cons, List.cons.injEq] at h
      obtain ⟨h1, h2⟩ := h
      simp only [List.cons_append, matchLitCI]
      rw [if_pos (by simp [charCI, h1])]
      exact ih t rest h2

theorem matchLitCI_elim :
    ∀ (lit cs rest : List Char), matchLitCI lit cs = some rest →
    ∃ t, cs = t ++ rest ∧ ciEq t lit := by
  intro lit
  induction lit with
  | nil =>
    intro cs rest h
    simp only [matchLitCI, Option.some.injEq] at h
    exact ⟨[], by simpa using h, by simp [ciEq]⟩
  | cons l ls ih =>
    intro cs rest h
    cases cs with
    | nil => simp [matchLitCI] at h
    | cons c cs =>
      simp only [matchLitCI] at h
      by_cases hc : charCI c l = true
      · rw [if_pos hc] at h
        obtain ⟨t, ht, hci⟩ := ih cs rest h
        refine ⟨c :: t, by simp [ht], ?_⟩
        simp only [ciEq, List.map_cons, List.cons.injEq]
        exact ⟨by simpa [charCI] using hc, hci⟩
      · rw [if_neg hc] at h
        simp at h

/-- Claim C5: for every reference string and base URL the URL Resolver is a
total function of the resolution primitive's outcome (it never raises), and
when the underlying URL resolution fails to parse it returns the original
reference string unchanged as a fallback value. -/
theorem resolveUrl_soft_fail (urlRes : String → String → Option String)
    (href baseUrl : String) (h : urlRes href baseUrl = none) :
    resolveUrl urlRes href baseUrl = href := by
  simp [resolveUrl, h]

/-- Witness for C5: a concrete reference whose resolution fails comes back
unchanged. -/
theorem resolveUrl_soft_fail_witness :
    resolveUrl (fun _ _ => none) "::bad::" "https://example.com/page" = "::bad::" :=
  resolveUrl_soft_fail (fun _ _ => none) "::bad::" "https://example.com/page" rfl

/-- Claim C7: when fetching or parsing the manifest fails (non-ok status,
network error, malformed JSON — all modeled by the fetch primitive
returning `none`), the manifest sub-routine contributes exactly zero
candidates, and being a total function it never aborts the extraction; on
success it produces exactly one candidate per entry of the manifest's icon
array, each of type manifest with priority 4, its src resolved against the
page's base URL and its sizes parsed by the Size Parser. -/
theorem fetchManifestIcons_spec (fetchMan : String → Option WebManifest)
    (urlRes : String → String → Option String) (manifestUrl baseUrl : String) :
    (fetchMan manifestUrl = none →
      fetchManifestIcons fetchMan urlRes manifestUrl baseUrl = [])
    ∧ (∀ m, fetchMan manifestUrl = some m →
        (fetchManifestIcons fetchMan urlRes manifestUrl baseUrl).length
          = (m.icons.getD []).length
        ∧ ∀ c ∈ fetchManifestIcons fetchMan urlRes manifestUrl baseUrl,
            c.type = IconType.manifest ∧ c.priority = 4
            ∧ ∃ ic ∈ m.icons.getD [],
                c.url = resolveUrl urlRes ic.src baseUrl
                ∧ c.width = (parseSizes ic.sizes).1
                ∧ c.height = (parseSizes ic.sizes).2) := by
  constructor
  · intro h
    simp [fetchManifestIcons, h]
  · intro m hm
    cases hicons : m.icons with
    | none =>
      constructor
      · simp [fetchManifestIcons, hm, hicons]
      · intro c hc
        simp [fetchManifestIcons, hm, hicons] at hc
    | some icons =>
      constructor
      · simp [fetchManifestIcons, hm, hicons]
      · intro c hc
        simp only [fetchManifestIcons, hm, hicons, List.mem_map] at hc
        obtain ⟨ic, hic, hceq⟩ := hc
        subst hceq
        exact ⟨rfl, rfl, ic, by simpa [hicons] using hic, rfl, rfl, rfl⟩

/-- Witness for C7: a concretely failing manifest fetch contributes no
candidates. -/
theorem fetchManifestIcons_spec_witness :
    fetchManifestIcons (fun _ => none) (fun _ _ => none)
      "https://example.com/manifest.json" "https://example.com/" = [] :=
  (fetchManifestIcons_spec (fun _ => none) (fun _ _ => none)
      "https://example.com/manifest.json" "https://example.com/").1 rfl

theorem parseSizes_nonneg (s : Option String) :
    0 ≤ (parseSizes s).1 ∧ 0 ≤ (parseSizes s).2 := by
  cases s with
  | none => simp [parseSizes]
  | some s =>
    by_cases he : s = ""
    · simp [parseSizes, he]
    · cases h1 : scanFirst wxhTryAt s.data with
      | some wh =>
        cases wh with
        | mk w h => simp [parseSizes, he, h1]
      | none =>
        cases h2 : scanFirst digitTryAt s.data with
        | some n => simp [parseSizes, he, h1, h2]
        | none => simp [parseSizes, he, h1, h2]

theorem mem_appleCandidates {urlRes : String → String → Option String}
    {html baseUrl : String} {c : IconCandidate}
    (h : c ∈ appleCandidates urlRes html baseUrl) :
    c.type = IconType.appleTouchIcon ∧ c.priority = 1 ∧ 0 ≤ c.width ∧ 0 ≤ c.height
      ∧ ∃ ref, c.url = resolveUrl urlRes ref baseUrl := by
  unfold appleCandidates at h
  rw [List.mem_filterMap] at h
  obtain ⟨m, _, hm⟩ := h
  cases hh : extractAttribute (String.mk m) "href" with
  | none => rw [hh] at hm; simp at hm
  | some href =>
    rw [hh] at hm
    simp only at hm
    by_cases he : href = ""
    · rw [if_pos he] at hm; simp at hm
    · rw [if_neg he] at hm
      have hc := Option.some.inj hm
      subst hc
      exact ⟨rfl, rfl, (parseSizes_nonneg _).1, (parseSizes_nonneg _).2, href, rfl⟩

theorem mem_faviconCandidates {urlRes : String → String → Option String}
    {html baseUrl : String} {c : IconCandidate}
    (h : c ∈ faviconCandidates urlRes html baseUrl) :
    c.type = IconType.favicon ∧ c.priority = 2 ∧ 0 ≤ c.width ∧ 0 ≤ c.height
      ∧ ∃ ref, c.url = resolveUrl urlRes ref baseUrl := by
  unfold faviconCandidates at h
  rw [List.mem_filterMap] at h
  obtain ⟨m, _, hm⟩ := h
  cases hh : extractAttribute (String.mk m) "href" with
  | none => rw [hh] at hm; simp at hm
  | some href =>
    rw [hh] at hm
    simp only at hm
    by_cases he : href = ""
    · rw [if_pos he] at hm; simp at hm
    · rw [if_neg he] at hm
      have hc := Option.some.inj hm
      subst hc
      exact ⟨rfl, rfl, (parseSizes_nonneg _).1, (parseSizes_nonneg _).2, href, rfl⟩

theorem mem_ogImageCandidates {urlRes : String → String → Option String}
    {html baseUrl : String} {c : IconCandidate}
    (h : c ∈ ogImageCandidates urlRes html baseUrl) :
    c.type = IconType.ogImage ∧ c.priority = 3 ∧ c.width = 1200 ∧ c.height = 630
      ∧ ∃ ref, c.url = resolveUrl urlRes ref baseUrl := by
  unfold ogImageCandidates at h
  rw [List.mem_filterMap] at h
  obtain ⟨m, _, hm⟩ := h
  cases hh : extractAttribute (String.mk m) "content" with
  | none => rw [hh] at hm; simp at hm
  | some content =>
    rw [hh] at hm
    simp only at hm
    by_cases he : content = ""
    · rw [if_pos he] at hm; simp at hm
    · rw [if_neg he] at hm
      have hc := Option.some.inj hm
      subst hc
      exact ⟨rfl, rfl, rfl, rfl, content, rfl⟩

theorem mem_fetchManifestIcons {fetchMan : String → Option WebManifest}
    {urlRes : String → String → Option String}
    {manifestUrl baseUrl : String} {c : IconCandidate}
    (h : c ∈ fetchManifestIcons fetchMan urlRes manifestUrl baseUrl) :
    c.type = IconType.manifest ∧ c.priority = 4 ∧ 0 ≤ c.width ∧ 0 ≤ c.height
      ∧ ∃ ref, c.url = resolveUrl urlRes ref baseUrl := by
  cases hf : fetchMan manifestUrl with
  | none => simp [fetchManifestIcons, hf] at h
  | some m =>
    cases hi : m.icons with
    | none => simp [fetchManifestIcons, hf, hi] at h
    | some icons =>
      simp only [fetchManifestIcons, hf, hi, List.mem_map] at h
      obtain ⟨ic, _, hceq⟩ := h
      subst hceq
      exact ⟨rfl, rfl, (parseSizes_nonneg _).1, (parseSizes_nonneg _).2, ic.src, rfl⟩

theorem mem_manifestCandidates {fetchMan : String → Option WebManifest}
    {urlRes : String → String → Option String}
    {html baseUrl : String} {c : IconCandidate}
    (h : c ∈ manifestCandidates fetchMan urlRes html baseUrl) :
    c.type = IconType.manifest ∧ c.priority = 4 ∧ 0 ≤ c.width ∧ 0 ≤ c.height
      ∧ ∃ ref, c.url = resolveUrl urlRes ref baseUrl := by
  unfold manifestCandidates at h
  rw [List.mem_flatMap] at h
  obtain ⟨m, _, hm⟩ := h
  cases hh : extractAttribute (String.mk m) "href" with
  | none => rw [hh] at hm; simp at hm
  | some href =>
    rw [hh] at hm
    simp only at hm
    by_cases he : href = ""
    · rw [if_pos he] at hm; simp at hm
    · rw [if_neg he] at hm
      exact mem_fetchManifestIcons hm

theorem mem_preManifestIcons_type {urlRes : String → String → Option String}
    {html baseUrl : String} {c : IconCandidate}
    (h : c ∈ preManifestIcons urlRes html baseUrl) :
    c.type = IconType.appleTouchIcon ∨ c.type = IconType.favicon
      ∨ c.type = IconType.ogImage := by
  unfold preManifestIcons at h
  rcases List.mem_append.mp h with h | h
  · rcases List.mem_append.mp h with h | h
    · exact Or.inl (mem_appleCandidates h).1
    · exact Or.inr (Or.inl (mem_faviconCandidates h).1)
  · exact Or.inr (Or.inr (mem_ogImageCandidates h).1)

theorem extractIcons_eq (fetchMan : String → Option WebManifest)
    (urlRes : String → String → Option String) (html baseUrl : String) :
    extractIcons fetchMan urlRes html baseUrl =
      (if ((preManifestIcons urlRes html baseUrl).filter
            (fun icon => icon.type != IconType.ogImage)).length = 0
       then preManifestIcons urlRes html baseUrl
            ++ manifestCandidates fetchMan urlRes html baseUrl
       else preManifestIcons urlRes html baseUrl) := rfl

/-- Claim C2: the manifest scan of `extractIcons` runs if and only if,
after the apple-touch-icon, favicon and og-image passes, the candidate
list contains zero candidates of type apple-touch-icon or favicon.  The
first conjunct translates the source's guard (zero candidates whose type
differs from og-image) into exactly that condition, so og-image candidates
do not count toward the check; the second conjunct shows the manifest
candidates are appended exactly under the guard. -/
theorem extractIcons_manifest_condition (fetchMan : String → Option WebManifest)
    (urlRes : String → String → Option String) (html baseUrl : String) :
    (((preManifestIcons urlRes html baseUrl).filter
        (fun icon => icon.type != IconType.ogImage)).length = 0
      ↔ ∀ c ∈ preManifestIcons urlRes html baseUrl,
          c.type ≠ IconType.appleTouchIcon ∧ c.type ≠ IconType.favicon)
    ∧ extractIcons fetchMan urlRes html baseUrl =
        (if ((preManifestIcons urlRes html baseUrl).filter
              (fun icon => icon.type != IconType.ogImage)).length = 0
         then preManifestIcons urlRes html baseUrl
              ++ manifestCandidates fetchMan urlRes html baseUrl
         else preManifestIcons urlRes html baseUrl) := by
  refine ⟨?_, extractIcons_eq fetchMan urlRes html baseUrl⟩
  rw [List.length_eq_zero, List.filter_eq_nil_iff]
  constructor
  · intro h c hc
    have hog : c.type = IconType.ogImage := by
      have := h c hc
      simpa using this
    constructor
    · rw [hog]; intro hcon; cases hcon
    · rw [hog]; intro hcon; cases hcon
  · intro h c hc
    rcases mem_preManifestIcons_type hc with ht | ht | ht
    · exact absurd ht (h c hc).1
    · exact absurd ht (h c hc).2
    · simp [ht]

/-- Modelled from the spec: the candidate invariant of the spec calls for a
"valid absolute URL string".  A serialized absolute URL of the authority
form consists of an alphabetic scheme, the separator, and a non-empty
remainder (host and path); the WHATWG URL parser rejects a special-scheme
URL with an empty host, so the serialization of a valid absolute http or
https URL always has a non-empty remainder after the separator.  This
executable check captures that necessary condition. -/
def isValidAbsoluteUrl (s : String) : Bool :=
  let scheme := s.data.takeWhile Char.isAlpha
  let rest := s.data.drop scheme.length
  (!scheme.isEmpty) && (rest.take 3 == [':', '/', '/']) && (!(rest.drop 3).isEmpty)

/-- Counterexample to claim C8 as stated: on the page markup
`link rel icon href http://` the favicon pass extracts the reference
`http://`; the WHATWG URL constructor throws on it (special scheme with an
empty host, which is why the resolution primitive returns `none` there),
so `resolveUrl` falls back to the raw reference string, and the resulting
candidate's url `http://` is not a valid absolute URL string. -/
theorem extractIcons_url_not_absolute_counterexample :
    extractIcons (fun _ => none)
      (fun ref _ => if ref = "http://" then none else some ref)
      "<link rel=\"icon\" href=\"http://\">" "https://example.com/"
      = [{ url := "http://", width := 32, height := 32,
           type := IconType.favicon, priority := 2 }]
    ∧ isValidAbsoluteUrl "http://" = false := by
  constructor
  · decide
  · decide

/-- Claim C8 (amended): every candidate appended by extraction has
non-negative width and height, a priority that is exactly the fixed
function of its sourceType (and og-image candidates carry the fixed 1200
by 630 size), and a url that is the URL Resolver's result for some
reference — an absolute URL when the platform resolution succeeds, and the
raw reference string when it fails (the original claim's unconditional
"valid absolute URL" clause fails in the fallback case). -/
theorem extractIcons_candidate_invariant (fetchMan : String → Option WebManifest)
    (urlRes : String → String → Option String) (html baseUrl : String)
    (c : IconCandidate) (h : c ∈ extractIcons fetchMan urlRes html baseUrl) :
    0 ≤ c.width ∧ 0 ≤ c.height ∧ c.priority = priorityOf c.type
    ∧ (c.type = IconType.ogImage → c.width = 1200 ∧ c.height = 630)
    ∧ ∃ ref, c.url = resolveUrl urlRes ref baseUrl := by
  rw [extractIcons_eq] at h
  have hmem : c ∈ preManifestIcons urlRes html baseUrl
      ∨ c ∈ manifestCandidates fetchMan urlRes html baseUrl := by
    by_cases hc : ((preManifestIcons urlRes html baseUrl).filter
        (fun icon => icon.type != IconType.ogImage)).length = 0
    · rw [if_pos hc] at h
      exact List.mem_append.mp h
    · rw [if_neg hc] at h
      exact Or.inl h
  rcases hmem with hpre | hman
  · unfold preManifestIcons at hpre
    rcases List.mem_append.mp hpre with hpre | hog
    · rcases List.mem_append.mp hpre with ha | hf
      · obtain ⟨ht, hp, hw, hh, href⟩ := mem_appleCandidates ha
        refine ⟨hw, hh, ?_, ?_, href⟩
        · rw [ht, hp]; rfl
        · intro hcon; rw [ht] at hcon; cases hcon
      · obtain ⟨ht, hp, hw, hh, href⟩ := mem_faviconCandidates hf
        refine ⟨hw, hh, ?_, ?_, href⟩
        · rw [ht, hp]; rfl
        · intro hcon; rw [ht] at hcon; cases hcon
    · obtain ⟨ht, hp, hw, hh, href⟩ := mem_ogImageCandidates hog
      refine ⟨by rw [hw]; decide, by rw [hh]; decide, ?_, ?_, href⟩
      · rw [ht, hp]; rfl
      · intro _; exact ⟨hw, hh⟩
  · obtain ⟨ht, hp, hw, hh, href⟩ := mem_manifestCandidates hman
    refine ⟨hw, hh, ?_, ?_, href⟩
    · rw [ht, hp]; rfl
    · intro hcon; rw [ht] at hcon; cases hcon

/-- Witness for C8 at a concrete page with one favicon declaration. -/
theorem extractIcons_candidate_invariant_witness :
    0 ≤ (32 : Int) ∧ 0 ≤ (32 : Int) ∧ 2 = priorityOf IconType.favicon
    ∧ (IconType.favicon = IconType.ogImage → (32 : Int) = 1200 ∧ (32 : Int) = 630)
    ∧ ∃ ref, "/f.ico" = resolveUrl (fun r _ => some r) ref "https://example.com/" :=
  extractIcons_candidate_invariant (fun _ => none) (fun r _ => some r)
    "<link rel=\"icon\" href=\"/f.ico\">" "https://example.com/"
    { url := "/f.ico", width := 32, height := 32,
      type := IconType.favicon, priority := 2 } (by decide)

theorem scanFirst_ne_nil_some {α : Type} {f : List Char → Option α}
    {cs : List Char} {r : α} (hne : cs ≠ []) (h : f cs = some r) :
    scanFirst f cs = some r := by
  cases cs with
  | nil => exact absurd rfl hne
  | cons c cs => exact scanFirst_cons_some h

/-- Counterexample to claim C3 as stated: the descriptor 180X90 contains a
digits-x-digits pattern when the separator is matched case-insensitively,
so the claim predicts the result (180, 90); but the source's size regex
carries no case-insensitive flag, the uppercase X does not match it, and
the parser falls through to the single-number rule, returning (180, 180). -/
theorem parseSizes_uppercase_separator_counterexample :
    parseSizes (some "180X90") = (180, 180)
    ∧ parseSizes (some "180X90") ≠ (180, 90) := by
  exact ⟨by decide, by decide⟩

/-- Claim C3 (amended): the separator of the digits-x-digits rule matches
the lowercase letter x only (the regex has no case-insensitive flag; an
uppercase X falls through to the single-number rule).  For every size
descriptor containing a lowercase digits-x-digits occurrence, the Size
Parser returns the two integers of the first (leftmost) such occurrence,
each digit run read greedily: here the descriptor is decomposed as
`pre ++ a ++ x :: b ++ post` with `a` and `b` the digit runs of the first
occurrence (no occurrence starts inside `pre`, and `post` does not extend
the second run). -/
theorem parseSizes_first_lowercase_wxh
    (pre a b post : List Char)
    (ha : a ≠ []) (had : ∀ c ∈ a, c.isDigit = true)
    (hb : b ≠ []) (hbd : ∀ c ∈ b, c.isDigit = true)
    (hpost : post = [] ∨ ∃ d post2, post = d :: post2 ∧ d.isDigit = false)
    (hfirst : ∀ i < pre.length,
      wxhTryAt (List.drop i (pre ++ (a ++ 'x' :: (b ++ post)))) = none) :
    parseSizes (some (String.mk (pre ++ (a ++ 'x' :: (b ++ post)))))
      = ((digitsToNat a : Int), (digitsToNat b : Int)) := by
  have htw : (a ++ 'x' :: (b ++ post)).takeWhile Char.isDigit = a :=
    takeWhile_append_stop a (b ++ post) 'x' had (by decide)
  have htwb : (b ++ post).takeWhile Char.isDigit = b := by
    rcases hpost with hp | ⟨d, post2, hp, hd⟩
    · subst hp; simpa using takeWhile_all b hbd
    · subst hp; exact takeWhile_append_stop b post2 d hbd hd
  have htry : wxhTryAt (a ++ 'x' :: (b ++ post))
      = some (digitsToNat a, digitsToNat b) := by
    unfold wxhTryAt
    simp only [htw]
    rw [if_neg ha]
    simp only [List.drop_left]
    simp only [htwb]
    rw [if_neg hb]
  have hscan : scanFirst wxhTryAt (pre ++ (a ++ 'x' :: (b ++ post)))
      = some (digitsToNat a, digitsToNat b) := by
    rw [scanFirst_append_none pre _ hfirst]
    exact scanFirst_ne_nil_some (by simp) htry
  have hne : String.mk (pre ++ (a ++ 'x' :: (b ++ post))) ≠ "" := by
    intro hcon
    have := congrArg String.data hcon
    simp at this
  simp [parseSizes, hne, hscan]

/-- Witness for C3 on the concrete descriptor ab180x90cd. -/
theorem parseSizes_first_lowercase_wxh_witness :
    parseSizes (some "ab180x90cd") = (180, 90) := by
  have h := parseSizes_first_lowercase_wxh "ab".data "180".data "90".data "cd".data
    (by decide) (by decide) (by decide) (by decide)
    (Or.inr ⟨'c', "d".data, by decide, by decide⟩) (by decide)
  exact h

theorem ciEq_append {t1 l1 t2 l2 : List Char} (h1 : ciEq t1 l1)
    (h2 : ciEq t2 l2) : ciEq (t1 ++ t2) (l1 ++ l2) := by
  unfold ciEq at *
  simp [h1, h2]

/-- Counterexample to claim C9 as stated: in the fragment
`href="abc'` the value abc is opened by a double quote and closed by a
single quote, so under the claim's matching-quotes rule no quoted value
follows the attribute name and the result should be absent; the source's
regex draws the two quotes independently from the same class, so it
accepts the mismatched pair and returns the value. -/
theorem extractAttribute_mismatched_quotes_counterexample :
    extractAttribute "href=\"abc\x27" "href" = some "abc"
    ∧ extractAttribute "href=\"abc\x27" "href" ≠ none := by
  exact ⟨by decide, by decide⟩

/-- Claim C9 (amended): the Attribute Extractor returns the value enclosed
between a single- or double-quote character and the next single- or
double-quote character immediately following the attribute name and an
equals sign — the opening and closing quote are drawn independently and
need not be of the same kind.  The attribute name is matched
case-insensitively, only the first (leftmost) match is returned, and when
no such quoted value follows the name anywhere the result is absent. -/
theorem extractAttribute_spec :
    (∀ (html attributeName : String) (pre nm v rest : List Char) (q1 q2 : Char),
      html.data = pre ++ (nm ++ '=' :: q1 :: (v ++ q2 :: rest)) →
      ciEq nm attributeName.data →
      isQuote q1 = true → isQuote q2 = true →
      (∀ ch ∈ v, isQuote ch = false) →
      (∀ i < pre.length,
        attrTryAt attributeName.data (List.drop i html.data) = none) →
      extractAttribute html attributeName = some (String.mk v))
    ∧ (∀ (html attributeName : String),
      (∀ i, attrTryAt attributeName.data (List.drop i html.data) = none) →
      extractAttribute html attributeName = none) := by
  constructor
  · intro html attributeName pre nm v rest q1 q2 hdata hnm hq1 hq2 hv hfirst
    have htry : attrTryAt attributeName.data (nm ++ '=' :: q1 :: (v ++ q2 :: rest))
        = some v := by
      unfold attrTryAt
      have hshape : nm ++ '=' :: q1 :: (v ++ q2 :: rest)
          = (nm ++ ['=']) ++ (q1 :: (v ++ q2 :: rest)) := by simp
      have hlit : matchLitCI (attributeName.data ++ ['='])
          ((nm ++ ['=']) ++ (q1 :: (v ++ q2 :: rest)))
          = some (q1 :: (v ++ q2 :: rest)) :=
        matchLitCI_of_ciEq _ _ _ (ciEq_append hnm (by simp [ciEq]))
      rw [hshape, hlit]
      simp only
      rw [if_pos hq1]
      have htv : (v ++ q2 :: rest).takeWhile (fun c => !isQuote c) = v :=
        takeWhile_append_stop v rest q2 (fun x hx => by simp [hv x hx])
          (by simp [hq2])
      simp only [htv, List.drop_left]
      rw [if_pos hq2]
    have hscan : scanFirst (attrTryAt attributeName.data) html.data = some v := by
      rw [hdata]
      rw [scanFirst_append_none pre _ (by rw [← hdata]; exact hfirst)]
      exact scanFirst_ne_nil_some (by simp) htry
    simp [extractAttribute, hscan]
  · intro html attributeName hall
    have hscan : scanFirst (attrTryAt attributeName.data) html.data = none :=
      scanFirst_none _ hall
    simp [extractAttribute, hscan]

/-- Witness for C9 on a concrete fragment with a leading non-matching
character and a double-quoted href value. -/
theorem extractAttribute_spec_witness :
    extractAttribute "x href=\"/a.png\"" "href" = some "/a.png" := by
  have h := extractAttribute_spec.1 "x href=\"/a.png\"" "href"
    "x ".data "href".data "/a.png".data [] '"' '"'
    (by decide) (by decide) (by decide) (by decide) (by decide) (by decide)
  exact h

theorem takeWhile_append_drop (p : Char → Bool) :
    ∀ (l : List Char), l.takeWhile p ++ l.drop (l.takeWhile p).length = l := by
  intro l
  induction l with
  | nil => rfl
  | cons c cs ih =>
    rw [List.takeWhile_cons]
    by_cases hc : p c = true
    · rw [if_pos hc]
      simpa using ih
    · rw [if_neg hc]
      simp

theorem tryStarThen_isSome_of {cont : List Char → Option Nat} :
    ∀ (n k : Nat) (cs : List Char), k ≤ n →
    (cont (List.drop k cs)).isSome = true →
    (tryStarThen cont n cs).isSome = true := by
  intro n
  induction n with
  | zero =>
    intro k cs hk hc
    have : k = 0 := by omega
    subst this
    simpa [tryStarThen] using hc
  | succ n ih =>
    intro k cs hk hc
    unfold tryStarThen
    cases hn : cont (cs.drop (n + 1)) with
    | some m => simp
    | none =>
      simp only
      by_cases hkn : k = n + 1
      · subst hkn
        rw [hn] at hc
        simp at hc
      · exact ih k cs (by omega) hc

theorem tryStarThen_elim {cont : List Char → Option Nat} :
    ∀ (n : Nat) (cs : List Char), (tryStarThen cont n cs).isSome = true →
    ∃ k, k ≤ n ∧ (cont (List.drop k cs)).isSome = true := by
  intro n
  induction n with
  | zero =>
    intro cs h
    exact ⟨0, Nat.le_refl 0, by simpa [tryStarThen] using h⟩
  | succ n ih =>
    intro cs h
    unfold tryStarThen at h
    cases hn : cont (cs.drop (n + 1)) with
    | some m => exact ⟨n + 1, Nat.le_refl _, by simp [hn]⟩
    | none =>
      rw [hn] at h
      simp only at h
      obtain ⟨k, hk, hc⟩ := ih cs h
      exact ⟨k, by omega, hc⟩

theorem contAfterA_shape_isSome {p : TagPattern} (hsuf : p.allowValueSuffix = true)
    (r v b c rest : List Char) (q1 q2 : Char)
    (hr : ciEq r p.attrLit) (hq1 : isQuote q1 = true)
    (hv : ciEq v p.valueLit) (hb : ∀ ch ∈ b, isQuote ch = false)
    (hq2 : isQuote q2 = true) (hc : ∀ ch ∈ c, ch ≠ '>') :
    (contAfterA p (r ++ (q1 :: (v ++ (b ++ (q2 :: (c ++ '>' :: rest))))))).isSome
      = true := by
  have htb : (b ++ (q2 :: (c ++ '>' :: rest))).takeWhile (fun ch => !isQuote ch)
      = b :=
    takeWhile_append_stop _ _ _ (fun x hx => by simp [hb x hx]) (by simp [hq2])
  have htc : (c ++ '>' :: rest).takeWhile (fun ch => ch != '>') = c :=
    takeWhile_append_stop _ _ _ (fun x hx => by simp [hc x hx]) (by simp)
  unfold contAfterA
  rw [matchLitCI_of_ciEq _ _ _ hr]
  simp only [if_pos hq1, matchLitCI_of_ciEq _ _ _ hv, hsuf, if_true, htb,
    List.drop_left, if_pos hq2, htc]
  simp

theorem contAfterA_elim {p : TagPattern} {cs : List Char}
    (h : (contAfterA p cs).isSome = true) :
    ∃ r v b c rest q1 q2,
      cs = r ++ (q1 :: (v ++ (b ++ (q2 :: (c ++ '>' :: rest)))))
      ∧ ciEq r p.attrLit ∧ isQuote q1 = true ∧ ciEq v p.valueLit
      ∧ (∀ ch ∈ b, isQuote ch = false) ∧ isQuote q2 = true
      ∧ (∀ ch ∈ c, ch ≠ '>') := by
  unfold contAfterA at h
  cases h1 : matchLitCI p.attrLit cs with
  | none => rw [h1] at h; simp at h
  | some rest1 =>
    rw [h1] at h
    obtain ⟨r, hcs, hr⟩ := matchLitCI_elim _ _ _ h1
    cases rest1 with
    | nil => simp at h
    | cons q1 rest2 =>
      simp only at h
      by_cases hq1 : isQuote q1 = true
      · rw [if_pos hq1] at h
        cases h2 : matchLitCI p.valueLit rest2 with
        | none => rw [h2] at h; simp at h
        | some rest3 =>
          rw [h2] at h
          obtain ⟨v, hrest2, hvv⟩ := matchLitCI_elim _ _ _ h2
          simp only at h
          have hbsplit : rest3 =
              (if p.allowValueSuffix then rest3.takeWhile (fun c => !isQuote c) else [])
              ++ rest3.drop (if p.allowValueSuffix then rest3.takeWhile (fun c => !isQuote c) else []).length := by
            by_cases hs : p.allowValueSuffix = true
            · simp only [hs, if_true]
              exact (takeWhile_append_drop _ rest3).symm
            · simp only [hs, if_false]
              simp
          have hbmem : ∀ ch ∈ (if p.allowValueSuffix then rest3.takeWhile (fun c => !isQuote c) else []),
              isQuote ch = false := by
            by_cases hs : p.allowValueSuffix = true
            · simp only [hs, if_true]
              intro ch hch
              have := mem_takeWhile_sat rest3 ch hch
              simpa using this
            · simp only [hs, if_false]
              intro ch hch
              simp at hch
          cases h3 : rest3.drop (if p.allowValueSuffix then rest3.takeWhile (fun c => !isQuote c) else []).length with
          | nil => rw [h3] at h; simp at h
          | cons q2 rest5 =>
            rw [h3] at h
            simp only at h
            by_cases hq2 : isQuote q2 = true
            · rw [if_pos hq2] at h
              cases h4 : rest5.drop ((rest5.takeWhile (fun ch => ch != '>')).length) with
              | nil => rw [h4] at h; simp at h
              | cons g rest6 =>
                rw [h4] at h
                simp only at h
                by_cases hg : g = '>'
                · subst hg
                  set B := (if p.allowValueSuffix then rest3.takeWhile (fun c => !isQuote c) else [])
                    with hB
                  set C := rest5.takeWhile (fun ch => ch != '>') with hC
                  have hcsplit : rest5 = C ++ ('>' :: rest6) := by
                    have hw := takeWhile_append_drop (fun ch => ch != '>') rest5
                    rw [← hC] at hw
                    rw [h4] at hw
                    exact hw.symm
                  have hcmem : ∀ ch ∈ C, ch ≠ '>' := by
                    intro ch hch
                    rw [hC] at hch
                    have := mem_takeWhile_sat rest5 ch hch
                    simpa using this
                  have hr3 : rest3 = B ++ (q2 :: rest5) := by
                    conv_lhs => rw [hbsplit]
                    rw [h3]
                  refine ⟨r, v, B, C, rest6, q1, q2, ?_, hr, hq1, hvv, hbmem, hq2, hcmem⟩
                  rw [hcs, hrest2, hr3, hcsplit]
                · rw [if_neg hg] at h; simp at h
            · rw [if_neg hq2] at h; simp at h
      · rw [if_neg hq1] at h; simp at h

/-- Shape of the text accepted by the apple-touch-icon regex at a position:
the link-tag literal (case-insensitive), a run of non-gt characters, the
rel-attribute literal, an opening quote, the value literal
`apple-touch-icon` (case-insensitive) — so the rel attribute value must
BEGIN with the token — an arbitrary run of non-quote characters, a closing
quote, a run of non-gt characters, and the closing gt. -/
def AppleMatchShape (cs : List Char) : Prop :=
  ∃ t a r v b c rest q1 q2,
    cs = t ++ (a ++ (r ++ (q1 :: (v ++ (b ++ (q2 :: (c ++ '>' :: rest)))))))
    ∧ ciEq t applePat.tagLit ∧ (∀ ch ∈ a, ch ≠ '>') ∧ ciEq r applePat.attrLit
    ∧ isQuote q1 = true ∧ ciEq v applePat.valueLit
    ∧ (∀ ch ∈ b, isQuote ch = false) ∧ isQuote q2 = true
    ∧ (∀ ch ∈ c, ch ≠ '>')

theorem tryPat_apple_isSome_iff (cs : List Char) :
    (tryPat applePat cs).isSome = true ↔ AppleMatchShape cs := by
  constructor
  · intro h
    unfold tryPat at h
    cases h1 : matchLitCI applePat.tagLit cs with
    | none => rw [h1] at h; simp at h
    | some rest =>
      rw [h1] at h
      obtain ⟨t, hcs, ht⟩ := matchLitCI_elim _ _ _ h1
      simp only [Option.isSome_map'] at h
      obtain ⟨k, hk, hcont⟩ := tryStarThen_elim _ _ h
      obtain ⟨r, v, b, c, rest6, q1, q2, hdrop, hr, hq1, hv, hb, hq2, hc⟩ :=
        contAfterA_elim hcont
      have ha : ∀ ch ∈ rest.take k, ch ≠ '>' := by
        intro ch hch
        have := take_sat_of_le_takeWhile rest k hk ch hch
        simpa using this
      have hrest : rest = rest.take k
          ++ (r ++ (q1 :: (v ++ (b ++ (q2 :: (c ++ '>' :: rest6)))))) := by
        conv_lhs => rw [← List.take_append_drop k rest]
        rw [hdrop]
      exact ⟨t, rest.take k, r, v, b, c, rest6, q1, q2,
        hcs.trans (congrArg (fun x => t ++ x) hrest),
        ht, ha, hr, hq1, hv, hb, hq2, hc⟩
  · intro h
    obtain ⟨t, a, r, v, b, c, rest6, q1, q2, hcs, ht, ha, hr, hq1, hv, hb, hq2, hc⟩ := h
    have hshape := contAfterA_shape_isSome (p := applePat) rfl r v b c rest6 q1 q2
      hr hq1 hv hb hq2 hc
    set inner := r ++ (q1 :: (v ++ (b ++ (q2 :: (c ++ '>' :: rest6))))) with hinner
    subst hcs
    unfold tryPat
    rw [matchLitCI_of_ciEq _ _ _ ht]
    simp only [Option.isSome_map']
    have hklen : a.length ≤ ((a ++ inner).takeWhile (fun ch => ch != '>')).length := by
      rw [takeWhile_append_all a inner (fun x hx => by simp [ha x hx])]
      simp
    have hdk : (contAfterA applePat ((a ++ inner).drop a.length)).isSome = true := by
      rw [List.drop_left]
      exact hshape
    exact tryStarThen_isSome_of _ a.length (a ++ inner) hklen hdk

/-- Counterexample to claim C4 as stated: the tag
`link rel x-apple-touch-icon href /a.png` has a rel attribute value that
contains apple-touch-icon as a substring (first conjunct) and an href
attribute (second conjunct), yet extraction yields no candidate at all
(third conjunct): the regex requires the rel value to begin with the token
right after the opening quote, so a preceding `x-` defeats the match. -/
theorem apple_scan_substring_counterexample :
    (∃ u w, ("x-apple-touch-icon").data = u ++ ("apple-touch-icon").data ++ w)
    ∧ extractAttribute "<link rel=\"x-apple-touch-icon\" href=\"/a.png\">" "href"
        = some "/a.png"
    ∧ extractIcons (fun _ => none) (fun r _ => some r)
        "<link rel=\"x-apple-touch-icon\" href=\"/a.png\">" "https://example.com/"
        = [] := by
  refine ⟨⟨"x-".data, [], by decide⟩, by decide, by decide⟩

/-- Claim C4 (amended): the apple-touch-icon regex matches at a position
exactly when the text there is a link tag whose rel attribute value BEGINS
with apple-touch-icon (arbitrary non-quote characters may follow the token
inside the value, but nothing may precede it — a rel value merely
containing the token elsewhere, such as x-apple-touch-icon, is not
matched); and each matched tag with a truthy href attribute produces a
priority-1 apple-touch-icon candidate in the extraction output. -/
theorem apple_scan_spec :
    (∀ cs : List Char, (tryPat applePat cs).isSome = true ↔ AppleMatchShape cs)
    ∧ (∀ (fetchMan : String → Option WebManifest)
        (urlRes : String → String → Option String)
        (html baseUrl : String) (m : List Char) (href : String),
        m ∈ matchAll applePat html.data →
        extractAttribute (String.mk m) "href" = some href → href ≠ "" →
        ({ url := resolveUrl urlRes href baseUrl,
           width := (parseSizes (extractAttribute (String.mk m) "sizes")).1,
           height := (parseSizes (extractAttribute (String.mk m) "sizes")).2,
           type := IconType.appleTouchIcon, priority := 1 } : IconCandidate)
          ∈ extractIcons fetchMan urlRes html baseUrl) := by
  constructor
  · exact tryPat_apple_isSome_iff
  · intro fetchMan urlRes html baseUrl m href hm hhref hne
    have happle : (IconCandidate.mk (resolveUrl urlRes href baseUrl)
        (parseSizes (extractAttribute (String.mk m) "sizes")).1
        (parseSizes (extractAttribute (String.mk m) "sizes")).2
        IconType.appleTouchIcon 1)
        ∈ appleCandidates urlRes html baseUrl := by
      unfold appleCandidates
      refine List.mem_filterMap.mpr ⟨m, hm, ?_⟩
      rw [hhref]
      simp only
      rw [if_neg hne]
    have hpre : (IconCandidate.mk (resolveUrl urlRes href baseUrl)
        (parseSizes (extractAttribute (String.mk m) "sizes")).1
        (parseSizes (extractAttribute (String.mk m) "sizes")).2
        IconType.appleTouchIcon 1)
        ∈ preManifestIcons urlRes html baseUrl := by
      unfold preManifestIcons
      exact List.mem_append_left _ (List.mem_append_left _ happle)
    rw [extractIcons_eq]
    by_cases hcond : ((preManifestIcons urlRes html baseUrl).filter
        (fun icon => icon.type != IconType.ogImage)).length = 0
    · rw [if_pos hcond]
      exact List.mem_append_left _ hpre
    · rw [if_neg hcond]
      exact hpre

/-- Witness for C4 on a concrete page with one apple-touch-icon link. -/
theorem apple_scan_spec_witness :
    ({ url := "/a.png", width := 32, height := 32,
       type := IconType.appleTouchIcon, priority := 1 } : IconCandidate)
      ∈ extractIcons (fun _ => none) (fun r _ => some r)
        "<link rel=\"apple-touch-icon\" href=\"/a.png\">" "https://example.com/" := by
  have h := apple_scan_spec.2 (fun _ => none) (fun r _ => some r)
    "<link rel=\"apple-touch-icon\" href=\"/a.png\">" "https://example.com/"
    "<link rel=\"apple-touch-icon\" href=\"/a.png\">".data "/a.png"
    (by decide) (by decide) (by decide)
  exact h

/-- Strict order induced by the sort comparator: smaller priority, or equal
priority and strictly smaller size distance. -/
def bLt (a b : IconCandidate) : Prop :=
  a.priority < b.priority
    ∨ (a.priority = b.priority ∧ sizeDistance a < sizeDistance b)

/-- Reflexive order induced by the sort comparator: smaller priority, or
equal priority and size distance at most as large. -/
def bLe (a b : IconCandidate) : Prop :=
  a.priority < b.priority
    ∨ (a.priority = b.priority ∧ sizeDistance a ≤ sizeDistance b)

theorem compareIcons_neg_iff (a b : IconCandidate) :
    compareIcons a b < 0 ↔ bLt a b := by
  unfold compareIcons bLt
  split <;> omega

theorem compareIcons_not_neg {a b : IconCandidate}
    (h : ¬ compareIcons a b < 0) : bLe b a := by
  unfold compareIcons at h
  unfold bLe
  revert h
  split <;> omega

theorem bLe_of_bLt {a b : IconCandidate} (h : bLt a b) : bLe a b := by
  unfold bLt at h; unfold bLe; omega

theorem bLe_refl (a : IconCandidate) : bLe a a := by
  unfold bLe; omega

theorem bLe_trans {a b c : IconCandidate} (h1 : bLe a b) (h2 : bLe b c) :
    bLe a c := by
  unfold bLe at *; omega

theorem bLt_pred_false {b c : IconCandidate} (h : bLt b c) :
    ((b.priority == c.priority) && (sizeDistance b == sizeDistance c)) = false := by
  unfold bLt at h
  rcases h with h1 | ⟨h1, h2⟩
  · have hb : (b.priority == c.priority) = false := by
      rw [beq_eq_false_iff_ne]; omega
    simp [hb]
  · have hd : (sizeDistance b == sizeDistance c) = false := by
      rw [beq_eq_false_iff_ne]; omega
    simp [hd]

theorem insertSorted_ne_nil (x : IconCandidate) (l : List IconCandidate) :
    insertSorted x l ≠ [] := by
  cases l with
  | nil => simp [insertSorted]
  | cons b t =>
    unfold insertSorted
    by_cases hc : compareIcons b x < 0
    · rw [if_pos hc]; simp
    · rw [if_neg hc]; simp

theorem sortIcons_eq_nil_iff (l : List IconCandidate) :
    sortIcons l = [] ↔ l = [] := by
  cases l with
  | nil => simp [sortIcons]
  | cons x xs =>
    constructor
    · intro h
      exact absurd h (insertSorted_ne_nil x (sortIcons xs))
    · intro h; cases h

theorem insertSorted_perm (x : IconCandidate) :
    ∀ (l : List IconCandidate), (insertSorted x l).Perm (x :: l) := by
  intro l
  induction l with
  | nil => simp [insertSorted]
  | cons b t ih =>
    unfold insertSorted
    by_cases hc : compareIcons b x < 0
    · rw [if_pos hc]
      exact (List.Perm.cons b ih).trans (List.Perm.swap x b t)
    · rw [if_neg hc]

theorem sortIcons_perm (l : List IconCandidate) : (sortIcons l).Perm l := by
  induction l with
  | nil => simp [sortIcons]
  | cons x xs ih =>
    have h1 : sortIcons (x :: xs) = insertSorted x (sortIcons xs) := rfl
    rw [h1]
    exact (insertSorted_perm x (sortIcons xs)).trans (List.Perm.cons x ih)

theorem pairwise_insertSorted {x : IconCandidate} :
    ∀ {l : List IconCandidate}, List.Pairwise bLe l →
    List.Pairwise bLe (insertSorted x l) := by
  intro l
  induction l with
  | nil => intro _; simp [insertSorted]
  | cons b t ih =>
    intro hp
    rw [List.pairwise_cons] at hp
    obtain ⟨hbt, hpt⟩ := hp
    unfold insertSorted
    by_cases hc : compareIcons b x < 0
    · rw [if_pos hc]
      rw [List.pairwise_cons]
      constructor
      · intro y hy
        rcases List.mem_cons.mp ((insertSorted_perm x t).mem_iff.mp hy) with h | h
        · rw [h]; exact bLe_of_bLt ((compareIcons_neg_iff b x).mp hc)
        · exact hbt y h
      · exact ih hpt
    · rw [if_neg hc]
      have hxb : bLe x b := compareIcons_not_neg hc
      rw [List.pairwise_cons]
      constructor
      · intro y hy
        rcases List.mem_cons.mp hy with h | h
        · subst h; exact hxb
        · exact bLe_trans hxb (hbt y h)
      · rw [List.pairwise_cons]
        exact ⟨hbt, hpt⟩

theorem sortIcons_pairwise (l : List IconCandidate) :
    List.Pairwise bLe (sortIcons l) := by
  induction l with
  | nil => simp [sortIcons]
  | cons x xs ih =>
    have h1 : sortIcons (x :: xs) = insertSorted x (sortIcons xs) := rfl
    rw [h1]
    exact pairwise_insertSorted ih

theorem sortIcons_head_spec :
    ∀ (l : List IconCandidate) (b : IconCandidate) (t : List IconCandidate),
    sortIcons l = b :: t →
    b ∈ l ∧ (∀ c ∈ l, bLe b c)
      ∧ List.find? (fun c => (b.priority == c.priority)
          && (sizeDistance b == sizeDistance c)) l = some b := by
  intro l
  induction l with
  | nil => intro b t h; simp [sortIcons] at h
  | cons x xs ih =>
    intro b t h
    have h1 : sortIcons (x :: xs) = insertSorted x (sortIcons xs) := rfl
    rw [h1] at h
    cases hs : sortIcons xs with
    | nil =>
      have hxs : xs = [] := (sortIcons_eq_nil_iff xs).mp hs
      subst hxs
      rw [hs] at h
      simp only [insertSorted, List.cons.injEq] at h
      obtain ⟨hb, _⟩ := h
      subst hb
      refine ⟨by simp, ?_, ?_⟩
      · intro c hc
        simp at hc
        rw [hc]
        exact bLe_refl x
      · rw [List.find?_cons_of_pos _ (by simp)]
    | cons b2 t2 =>
      rw [hs] at h
      obtain ⟨hmem, hall, hfind⟩ := ih b2 t2 hs
      unfold insertSorted at h
      by_cases hc : compareIcons b2 x < 0
      · rw [if_pos hc] at h
        rw [List.cons.injEq] at h
        obtain ⟨hb, _⟩ := h
        subst hb
        have hblt : bLt b2 x := (compareIcons_neg_iff b2 x).mp hc
        refine ⟨List.mem_cons_of_mem x hmem, ?_, ?_⟩
        · intro c hc2
          rcases List.mem_cons.mp hc2 with hcx | hcxs
          · rw [hcx]; exact bLe_of_bLt hblt
          · exact hall c hcxs
        · rw [List.find?_cons_of_neg _ (by simp [bLt_pred_false hblt])]
          exact hfind
      · rw [if_neg hc] at h
        rw [List.cons.injEq] at h
        obtain ⟨hb, _⟩ := h
        subst hb
        have hxb : bLe x b2 := compareIcons_not_neg hc
        refine ⟨by simp, ?_, ?_⟩
        · intro c hc2
          rcases List.mem_cons.mp hc2 with hcx | hcxs
          · rw [hcx]; exact bLe_refl x
          · exact bLe_trans hxb (hall c hcxs)
        · rw [List.find?_cons_of_pos _ (by simp)]

/-- Claim C1: for every non-empty candidate list, the Selector returns a
candidate of the list whose priority is the minimum priority present in the
list, whose size distance from the fixed 100 by 100 target is minimal
among the candidates sharing that minimum priority, and which is the
earliest candidate in pre-sort discovery order among those sharing both
its priority and its size distance (the leftmost `find?` hit), as the
stable sort keeps first-discovered ties first. -/
theorem findBestIcon_selects_min (l : List IconCandidate) (h : l ≠ []) :
    ∃ b, findBestIcon l = some b ∧ b ∈ l
      ∧ (∀ c ∈ l, b.priority ≤ c.priority)
      ∧ (∀ c ∈ l, c.priority = b.priority → sizeDistance b ≤ sizeDistance c)
      ∧ List.find? (fun c => (b.priority == c.priority)
          && (sizeDistance b == sizeDistance c)) l = some b := by
  cases hs : sortIcons l with
  | nil => exact absurd ((sortIcons_eq_nil_iff l).mp hs) h
  | cons b t =>
    obtain ⟨hmem, hall, hfind⟩ := sortIcons_head_spec l b t hs
    refine ⟨b, ?_, hmem, ?_, ?_, hfind⟩
    · simp [findBestIcon, hs]
    · intro c hc
      have := hall c hc
      unfold bLe at this
      omega
    · intro c hc hp
      have := hall c hc
      unfold bLe at this
      omega

/-- Concrete candidate list used by the selector witnesses: an og-image
candidate discovered first, then two priority-1 apple-touch-icon
candidates of which the later-discovered one is closer to 100 by 100. -/
def selectorWitnessIcons : List IconCandidate :=
  [⟨"a", 1200, 630, IconType.ogImage, 3⟩,
   ⟨"b", 180, 180, IconType.appleTouchIcon, 1⟩,
   ⟨"c", 32, 32, IconType.appleTouchIcon, 1⟩]

/-- Witness for C1 on a concrete three-candidate list: two priority-1
candidates, the later-discovered one closer to the target size. -/
theorem findBestIcon_selects_min_witness :
    ∃ b, findBestIcon selectorWitnessIcons = some b ∧ b ∈ selectorWitnessIcons
      ∧ (∀ c ∈ selectorWitnessIcons, b.priority ≤ c.priority)
      ∧ (∀ c ∈ selectorWitnessIcons,
          c.priority = b.priority → sizeDistance b ≤ sizeDistance c)
      ∧ List.find? (fun c => (b.priority == c.priority)
          && (sizeDistance b == sizeDistance c)) selectorWitnessIcons = some b :=
  findBestIcon_selects_min selectorWitnessIcons (by decide)

/-- Claim C10: the Selector sorts the caller's array in place — after the
call the array's state is `sortIcons l`, a permutation of the input (so no
candidate record is modified, added or dropped) that is ordered by
priority ascending and then size distance ascending — and the selected
element is the head of that reordered array. -/
theorem findBestIcon_sorts_in_place (l : List IconCandidate) (_h : l ≠ []) :
    findBestIcon l = (sortIcons l).head?
    ∧ (sortIcons l).Perm l
    ∧ List.Pairwise bLe (sortIcons l) :=
  ⟨rfl, sortIcons_perm l, sortIcons_pairwise l⟩

/-- Witness for C10 on the concrete three-candidate list given in
discovery order. -/
theorem findBestIcon_sorts_in_place_witness :
    findBestIcon selectorWitnessIcons = (sortIcons selectorWitnessIcons).head?
    ∧ (sortIcons selectorWitnessIcons).Perm selectorWitnessIcons
    ∧ List.Pairwise bLe (sortIcons selectorWitnessIcons) :=
  findBestIcon_sorts_in_place selectorWitnessIcons (by decide)
